import Mathlib

/-!
# Verification of the LOUDS tree module (louds-rs)

Shallow embedding of `src/louds/louds_impl.rs`.

* An LBS (LOUDS bit sequence) is a `List Bool` (`true` = bit '1', `false` = bit '0').
* The external bit-vector collaborator (fid) is embedded through its contract:
  `rank(i)` / `rank0(i)` count '1'/'0' bits in the closed range `[0, i]`, and
  `select(k)` / `select0(k)` give the position of the k-th '1'/'0' bit (1-origin).
* Rust panics are modelled as `none`; fallible operations return `Option`.
* The lazy bidirectional children iterator is a state record with two optional
  bounds, mirroring `ChildIndexIter { start: Option<u64>, end: Option<u64> }`.
-/

namespace Louds

/-- LBS: a bit is `true` for '1', `false` for '0'. -/
abbrev Lbs := List Bool

/-- Number of bits equal to `v`. -/
def countB (v : Bool) (bs : Lbs) : Nat := (bs.filter (fun b => b == v)).length

/-- Number of '1' bits (the number of real nodes `N`). -/
def count1 (bs : Lbs) : Nat := countB true bs

/-- Number of '0' bits. -/
def count0 (bs : Lbs) : Nat := countB false bs

/-- Collaborator contract: count of `v`-bits in positions `[0, i]`. -/
def rankB (v : Bool) (bs : Lbs) (i : Nat) : Nat := countB v (bs.take (i + 1))

/-- fid `rank(i)`: count of '1'-bits in `[0, i]`. -/
def rank1 (bs : Lbs) (i : Nat) : Nat := rankB true bs i

/-- fid `rank0(i)`: count of '0'-bits in `[0, i]`. -/
def rank0 (bs : Lbs) (i : Nat) : Nat := rankB false bs i

/-- Collaborator contract: position of the k-th `v`-bit (1-origin), `none` if absent. -/
def selectB (v : Bool) : Lbs → Nat → Option Nat
  | [], _ => none
  | b :: rest, k =>
    if b == v then
      if k = 1 then some 0 else (selectB v rest (k - 1)).map (· + 1)
    else
      (selectB v rest k).map (· + 1)

/-- fid `select(k)`: position of the k-th '1'-bit (1-origin). -/
def select1 (bs : Lbs) (k : Nat) : Option Nat := selectB true bs k

/-- fid `select0(k)`: position of the k-th '0'-bit (1-origin). -/
def select0 (bs : Lbs) (k : Nat) : Option Nat := selectB false bs k

/-- `Louds::validate_lbs`: bit 0 must be '1' and bit 1 must be '0'; every prefix
`[0, i]` must satisfy `count0 <= count1 + 1` (the source keeps running counters,
which at step `i` equal the prefix counts used here); the full sequence must
satisfy `count0 == count1 + 1`.  A sequence too short to have bits 0 and 1 fails,
like the source's panicking index access (modelled by the `getD` defaults). -/
def validate_lbs (bs : Lbs) : Bool :=
  bs.getD 0 false && !(bs.getD 1 true)
    && (List.range bs.length).all
        (fun i => count0 (bs.take (i + 1)) ≤ count1 (bs.take (i + 1)) + 1)
    && (count0 bs == count1 bs + 1)

/-- Character filter of `From<&str> for Louds`: `'1'`/`'0'` kept, `'_'` dropped,
any other character panics (`"not allowed"`). This checks no panic occurs. -/
def tokensOk (s : List Char) : Bool := s.all (fun c => c == '1' || c == '0' || c == '_')

/-- The bit sequence obtained from the token string by the source's filter. -/
def tokensToBits (s : List Char) : Lbs :=
  (s.filter (fun c => c == '1' || c == '0')).map (fun c => c == '1')

/-- `Louds::from(&str)`: filter the characters (panicking on a disallowed one),
then validate the resulting LBS; `none` models either panic. -/
def fromStr (s : List Char) : Option Lbs :=
  if tokensOk s then
    if validate_lbs (tokensToBits s) then some (tokensToBits s) else none
  else none

/-- `Louds::node_num_to_index`: asserts `node_num > 0`, then `select(node_num)`,
panicking (`none`) when the node does not exist. -/
def node_num_to_index (bs : Lbs) (n : Nat) : Option Nat :=
  if n = 0 then none else select1 bs n

/-- `Louds::index_to_node_num`: `validate_index` requires the bit at `index` to be
'1' (panic otherwise), then returns `rank(index)`. -/
def index_to_node_num (bs : Lbs) (i : Nat) : Option Nat :=
  match bs[i]? with
  | some true => some (rank1 bs i)
  | _ => none

/-- `Louds::child_to_parent`: `validate_index`, then asserts `index != 0`
(node 1 is the root), then returns `rank0(index)`. -/
def child_to_parent (bs : Lbs) (i : Nat) : Option Nat :=
  match bs[i]? with
  | some true => if i = 0 then none else some (rank0 bs i)
  | _ => none

/-- `ChildIndexIter`: the lazy bidirectional children iterator.  `stop` is the
source's `end` field (`end` is a Lean keyword). -/
structure ChildIndexIter where
  lbs : Lbs
  node : Nat
  start : Option Nat
  stop : Option Nat
deriving Repr, DecidableEq

/-- Resolution of the `start` bound: `select0(node) + 1` when still unresolved. -/
def ChildIndexIter.resolveStart (it : ChildIndexIter) : Option Nat :=
  match it.start with
  | some s => some s
  | none => (select0 it.lbs it.node).map (· + 1)

/-- Resolution of the `end` bound: `select0(node + 1) - 1` when still unresolved. -/
def ChildIndexIter.resolveStop (it : ChildIndexIter) : Option Nat :=
  match it.stop with
  | some e => some e
  | none => (select0 it.lbs (it.node + 1)).map (· - 1)

/-- `Iterator::next`: resolve `start` if needed (outer `none` = panic when
`select0(node)` is absent or the bit access is out of bounds); yield the cursor
position when the guard holds (`start <= end` once `end` is resolved, else the
bit at the cursor is '1'), advancing the cursor. `some (none, it)` = exhausted. -/
def ChildIndexIter.next (it : ChildIndexIter) : Option (Option Nat × ChildIndexIter) :=
  match it.resolveStart with
  | none => none
  | some s =>
    match it.stop with
    | some last =>
      if s ≤ last then some (some s, { it with start := some (s + 1) })
      else some (none, { it with start := some s })
    | none =>
      match it.lbs[s]? with
      | none => none
      | some b =>
        if b then some (some s, { it with start := some (s + 1) })
        else some (none, { it with start := some s })

/-- `DoubleEndedIterator::next_back`: symmetric to `next`, resolving `end` and
decrementing it on a yield (the source decrements in `u64`; on every state
reachable under the claims the cursor is positive, so `Nat` subtraction
agrees). -/
def ChildIndexIter.nextBack (it : ChildIndexIter) : Option (Option Nat × ChildIndexIter) :=
  match it.resolveStop with
  | none => none
  | some e =>
    match it.start with
    | some first =>
      if first ≤ e then some (some e, { it with stop := some (e - 1) })
      else some (none, { it with stop := some e })
    | none =>
      match it.lbs[e]? with
      | none => none
      | some b =>
        if b then some (some e, { it with stop := some (e - 1) })
        else some (none, { it with stop := some e })

/-- `ChildIndexIter::len`: force both bounds, then `end + 1 - start` (the source
computes this in `u64`; on the domain proved below it never underflows). -/
def ChildIndexIter.len (it : ChildIndexIter) : Option (Nat × ChildIndexIter) :=
  match it.resolveStart, it.resolveStop with
  | some s, some e => some (e + 1 - s, { it with start := some s, stop := some e })
  | _, _ => none

/-- `ChildIndexIter::is_empty`: `len() == 0`. -/
def ChildIndexIter.is_empty (it : ChildIndexIter) : Option (Bool × ChildIndexIter) :=
  (it.len).map (fun p => (p.1 == 0, p.2))

/-- `Louds::parent_to_children_indices`: asserts `node_num > 0` and builds the
iterator with both bounds unresolved.  No other check happens at this call. -/
def parent_to_children_indices (bs : Lbs) (n : Nat) : Option ChildIndexIter :=
  if n = 0 then none else some ⟨bs, n, none, none⟩

/-- `ChildNodeIter`: wrapper that maps yielded indices through `index_to_node_num`. -/
structure ChildNodeIter where
  inner : ChildIndexIter
deriving Repr, DecidableEq

/-- `Louds::parent_to_children_nodes`: wraps `parent_to_children_indices`. -/
def parent_to_children_nodes (bs : Lbs) (n : Nat) : Option ChildNodeIter :=
  (parent_to_children_indices bs n).map ChildNodeIter.mk

/-- Drive `next` to exhaustion, collecting the yields (`Iterator::collect`).
Fuel-bounded; fuel `bs.length + 1` always suffices, as proved below. -/
def collectFwd : Nat → ChildIndexIter → Option (List Nat × ChildIndexIter)
  | 0, _ => none
  | fuel + 1, it =>
    match it.next with
    | none => none
    | some (none, it1) => some ([], it1)
    | some (some i, it1) =>
      match collectFwd fuel it1 with
      | none => none
      | some (l, it2) => some (i :: l, it2)

/-- Drive `nextBack` to exhaustion, collecting the yields in call order. -/
def collectBwd : Nat → ChildIndexIter → Option (List Nat × ChildIndexIter)
  | 0, _ => none
  | fuel + 1, it =>
    match it.nextBack with
    | none => none
    | some (none, it1) => some ([], it1)
    | some (some i, it1) =>
      match collectBwd fuel it1 with
      | none => none
      | some (l, it2) => some (i :: l, it2)

/-- `Louds::parent_to_children`: `parent_to_children_indices(node).collect()`. -/
def parent_to_children (bs : Lbs) (n : Nat) : Option (List Nat) :=
  match parent_to_children_indices bs n with
  | none => none
  | some it => (collectFwd (bs.length + 1) it).map Prod.fst

/-- Run an arbitrary interleaving of `next` (direction `true`) and `nextBack`
(direction `false`), collecting forward and backward yields in call order. -/
def run : List Bool → ChildIndexIter → Option (List Nat × List Nat × ChildIndexIter)
  | [], it => some ([], [], it)
  | true :: ds, it =>
    match it.next with
    | none => none
    | some (o, it1) =>
      match run ds it1 with
      | none => none
      | some (f, b, it2) => some (o.toList ++ f, b, it2)
  | false :: ds, it =>
    match it.nextBack with
    | none => none
    | some (o, it1) =>
      match run ds it1 with
      | none => none
      | some (f, b, it2) => some (f, o.toList ++ b, it2)

/-- The closed position range `[select0(n)+1, select0(n+1)-1]` as a list,
in increasing order: the positions of node `n`'s children. -/
def childrenRange (bs : Lbs) (n : Nat) : List Nat :=
  match select0 bs n, select0 bs (n + 1) with
  | some s0, some s1 => List.range' (s0 + 1) (s1 - 1 - s0)
  | _, _ => []

/-- Observable exhaustion: the next forward draw yields nothing (and does not panic). -/
def isExhausted (it : ChildIndexIter) : Bool :=
  match it.next with
  | some (none, _) => true
  | _ => false

/-- The reference tree of the crate documentation: 11 nodes. -/
def refLbs : Lbs := tokensToBits "10_1110_10_0_1110_0_0_10_110_0_0_0".toList

/-- Structural facts about node `n`'s block in a valid LBS: `s₀`/`s₁` are the
n-th/(n+1)-th '0' positions; the bits strictly between them are exactly the
'1' bits of node `n`'s children. -/
structure Block (bs : Lbs) (n s₀ s₁ : Nat) : Prop where
  sel0 : select0 bs n = some s₀
  sel1 : select0 bs (n + 1) = some s₁
  pos : 1 ≤ s₀
  lt : s₀ < s₁
  lt_len : s₁ < bs.length
  bit0 : bs[s₀]? = some false
  bit1 : bs[s₁]? = some false
  ones : ∀ p, s₀ < p → p < s₁ → bs[p]? = some true

/-- Effective forward cursor: the resolved `start`, or the value `s₀ + 1` it
will resolve to. -/
def cursA (s₀ : Nat) (it : ChildIndexIter) : Nat := it.start.getD (s₀ + 1)

/-- Effective backward cursor: the resolved `stop`, or the value `s₁ - 1` it
will resolve to. -/
def cursB (s₁ : Nat) (it : ChildIndexIter) : Nat := it.stop.getD (s₁ - 1)

/-- Invariant of every iterator state reachable from a fresh children iterator
of node `n` on a valid LBS whose block is `[s₀, s₁]`. -/
structure IterInv (bs : Lbs) (n s₀ s₁ : Nat) (it : ChildIndexIter) : Prop where
  hlbs : it.lbs = bs
  hnode : it.node = n
  hstart : ∀ a, it.start = some a → s₀ + 1 ≤ a ∧ a ≤ s₁
  hstop : ∀ e, it.stop = some e → s₀ ≤ e ∧ e ≤ s₁ - 1
  hcross : cursA s₀ it ≤ cursB s₁ it + 1

/-! ## Counting lemmas -/

theorem countB_cons (v b : Bool) (l : Lbs) :
    countB v (b :: l) = (if b == v then 1 else 0) + countB v l := by
  simp only [countB, List.filter_cons]
  cases h : (b == v) <;> simp [Nat.add_comm]

theorem countB_append (v : Bool) (l1 l2 : Lbs) :
    countB v (l1 ++ l2) = countB v l1 + countB v l2 := by
  simp [countB, List.filter_append]

theorem countB_sublist {v : Bool} {l1 l2 : Lbs} (h : List.Sublist l1 l2) :
    countB v l1 ≤ countB v l2 :=
  (h.filter _).length_le

theorem countB_take_le (v : Bool) (bs : Lbs) (a : Nat) :
    countB v (bs.take a) ≤ countB v bs :=
  countB_sublist (List.take_sublist a bs)

theorem countB_take_mono (v : Bool) (bs : Lbs) {a b : Nat} (h : a ≤ b) :
    countB v (bs.take a) ≤ countB v (bs.take b) := by
  have heq : bs.take a = (bs.take b).take a := by
    rw [List.take_take, Nat.min_eq_left h]
  rw [heq]
  exact countB_take_le v (bs.take b) a

theorem countB_take_succ (v : Bool) (bs : Lbs) (j : Nat) {c : Bool} (h : bs[j]? = some c) :
    countB v (bs.take (j + 1)) = countB v (bs.take j) + (if c == v then 1 else 0) := by
  rw [List.take_succ, h, countB_append]
  congr 1
  simp only [Option.toList_some]
  rw [countB_cons]
  simp [countB]

theorem countB_take_pos {v : Bool} {bs : Lbs} {j : Nat} (h : bs[j]? = some v) :
    1 ≤ countB v (bs.take (j + 1)) := by
  rw [countB_take_succ v bs j h]
  simp

/-! ## Characterization of `selectB` -/

theorem countB_cons_self (v : Bool) (l : Lbs) : countB v (v :: l) = 1 + countB v l := by
  rw [countB_cons]
  simp

theorem countB_cons_ne {v b : Bool} (l : Lbs) (h : (b == v) = false) :
    countB v (b :: l) = countB v l := by
  rw [countB_cons, h]
  simp

theorem countB_take_succ_self (v : Bool) (bs : Lbs) (j : Nat) (h : bs[j]? = some v) :
    countB v (bs.take (j + 1)) = countB v (bs.take j) + 1 := by
  rw [countB_take_succ v bs j h]
  simp

theorem countB_take_succ_ne {v c : Bool} (bs : Lbs) (j : Nat) (h : bs[j]? = some c)
    (hne : (c == v) = false) :
    countB v (bs.take (j + 1)) = countB v (bs.take j) := by
  rw [countB_take_succ v bs j h, hne]
  simp

theorem selectB_zero (v : Bool) (bs : Lbs) : selectB v bs 0 = none := by
  induction bs with
  | nil => rfl
  | cons b rest ih =>
    simp only [selectB]
    by_cases hb : (b == v) = true
    · simp [hb, ih]
    · simp [Bool.of_not_eq_true hb, ih]

theorem selectB_cons_self_one (v : Bool) (rest : Lbs) : selectB v (v :: rest) 1 = some 0 := by
  simp [selectB]

theorem selectB_cons_self (v : Bool) (rest : Lbs) {k : Nat} (hk : k ≠ 1) :
    selectB v (v :: rest) k = (selectB v rest (k - 1)).map (· + 1) := by
  simp [selectB, hk]

theorem selectB_cons_ne {v b : Bool} (rest : Lbs) (h : (b == v) = false) (k : Nat) :
    selectB v (b :: rest) k = (selectB v rest k).map (· + 1) := by
  simp [selectB, h]

theorem selectB_eq_some {v : Bool} {bs : Lbs} {k i : Nat} (h : selectB v bs k = some i) :
    bs[i]? = some v ∧ countB v (bs.take (i + 1)) = k := by
  induction bs generalizing k i with
  | nil => simp [selectB] at h
  | cons b rest ih =>
    rcases Nat.eq_zero_or_pos k with hk0 | hk0
    · subst hk0
      rw [selectB_zero] at h
      simp at h
    by_cases hb : (b == v) = true
    · have hbv : b = v := by simpa using hb
      subst hbv
      by_cases hk : k = 1
      · subst hk
        rw [selectB_cons_self_one] at h
        obtain rfl : 0 = i := by simpa using h
        refine ⟨by simp, ?_⟩
        rw [List.take_succ_cons, List.take_zero, countB_cons_self]
        simp [countB]
      · rw [selectB_cons_self b rest hk] at h
        obtain ⟨j, hj, rfl⟩ := Option.map_eq_some'.mp h
        obtain ⟨hbj, hcj⟩ := ih hj
        refine ⟨by simpa using hbj, ?_⟩
        rw [List.take_succ_cons, countB_cons_self]
        omega
    · have hb' : (b == v) = false := Bool.of_not_eq_true hb
      rw [selectB_cons_ne rest hb'] at h
      obtain ⟨j, hj, rfl⟩ := Option.map_eq_some'.mp h
      obtain ⟨hbj, hcj⟩ := ih hj
      refine ⟨by simpa using hbj, ?_⟩
      rw [List.take_succ_cons, countB_cons_ne _ hb']
      omega

theorem selectB_isSome {v : Bool} {l : Lbs} {k : Nat} (h1 : 1 ≤ k) (h2 : k ≤ countB v l) :
    ∃ i, selectB v l k = some i := by
  induction l generalizing k with
  | nil => simp [countB] at h2; omega
  | cons b rest ih =>
    by_cases hb : (b == v) = true
    · have hbv : b = v := by simpa using hb
      subst hbv
      rw [countB_cons_self] at h2
      by_cases hk : k = 1
      · exact ⟨0, by rw [hk]; exact selectB_cons_self_one b rest⟩
      · obtain ⟨j, hj⟩ := ih (k := k - 1) (by omega) (by omega)
        exact ⟨j + 1, by rw [selectB_cons_self b rest hk, hj]; rfl⟩
    · have hb' : (b == v) = false := Bool.of_not_eq_true hb
      rw [countB_cons_ne rest hb'] at h2
      obtain ⟨j, hj⟩ := ih h1 h2
      exact ⟨j + 1, by rw [selectB_cons_ne rest hb', hj]; rfl⟩

theorem selectB_unique {v : Bool} {bs : Lbs} {k i : Nat}
    (hb : bs[i]? = some v) (hc : countB v (bs.take (i + 1)) = k) :
    selectB v bs k = some i := by
  have hk1 : 1 ≤ k := hc ▸ countB_take_pos hb
  have hk2 : k ≤ countB v bs := hc ▸ countB_take_le v bs (i + 1)
  obtain ⟨j, hj⟩ := selectB_isSome hk1 hk2
  obtain ⟨hbj, hcj⟩ := selectB_eq_some hj
  rcases Nat.lt_trichotomy i j with hij | hij | hij
  · exfalso
    have hstep := countB_take_succ_self v bs j hbj
    have hmono := countB_take_mono v bs (show i + 1 ≤ j from hij)
    omega
  · rw [hj, hij]
  · exfalso
    have hstep := countB_take_succ_self v bs i hb
    have hmono := countB_take_mono v bs (show j + 1 ≤ i from hij)
    omega

theorem selectB_lt_length {v : Bool} {bs : Lbs} {k i : Nat} (h : selectB v bs k = some i) :
    i < bs.length :=
  (List.getElem?_eq_some_iff.mp (selectB_eq_some h).1).1

theorem selectB_range {v : Bool} {bs : Lbs} {k i : Nat} (h : selectB v bs k = some i) :
    1 ≤ k ∧ k ≤ countB v bs := by
  obtain ⟨hb, hc⟩ := selectB_eq_some h
  exact ⟨hc ▸ countB_take_pos hb, hc ▸ countB_take_le v bs (i + 1)⟩

theorem selectB_mono {v : Bool} {bs : Lbs} {k i j : Nat} (h1 : selectB v bs k = some i)
    (h2 : selectB v bs (k + 1) = some j) : i < j := by
  obtain ⟨hbi, hci⟩ := selectB_eq_some h1
  obtain ⟨hbj, hcj⟩ := selectB_eq_some h2
  by_contra hcon
  push_neg at hcon
  have := countB_take_mono v bs (show j + 1 ≤ i + 1 by omega)
  omega

theorem select0_eq_some {bs : Lbs} {k i : Nat} (h : select0 bs k = some i) :
    bs[i]? = some false ∧ countB false (bs.take (i + 1)) = k := selectB_eq_some h

theorem select1_eq_some {bs : Lbs} {k i : Nat} (h : select1 bs k = some i) :
    bs[i]? = some true ∧ countB true (bs.take (i + 1)) = k := selectB_eq_some h

/-! ## Properties of a validated LBS -/

theorem getD_false_eq_true_iff {bs : Lbs} {i : Nat} :
    bs.getD i false = true ↔ bs[i]? = some true := by
  rw [List.getD_eq_getElem?_getD]
  cases h : bs[i]? <;> simp

theorem getD_true_eq_false_iff {bs : Lbs} {i : Nat} :
    bs.getD i true = false ↔ bs[i]? = some false := by
  rw [List.getD_eq_getElem?_getD]
  cases h : bs[i]? <;> simp

theorem validate_iff {bs : Lbs} :
    validate_lbs bs = true ↔
      (bs[0]? = some true ∧ bs[1]? = some false ∧
       (∀ i, i < bs.length → count0 (bs.take (i + 1)) ≤ count1 (bs.take (i + 1)) + 1) ∧
       count0 bs = count1 bs + 1) := by
  unfold validate_lbs
  simp only [Bool.and_eq_true, List.all_eq_true, List.mem_range, decide_eq_true_eq,
    beq_iff_eq, Bool.not_eq_true', getD_false_eq_true_iff, getD_true_eq_false_iff]
  tauto

theorem validate_spec {bs : Lbs} (h : validate_lbs bs = true) :
    bs[0]? = some true ∧ bs[1]? = some false ∧
    (∀ i, i < bs.length → count0 (bs.take (i + 1)) ≤ count1 (bs.take (i + 1)) + 1) ∧
    count0 bs = count1 bs + 1 := validate_iff.mp h

theorem valid_length {bs : Lbs} (h : validate_lbs bs = true) : 2 ≤ bs.length := by
  obtain ⟨-, h1, -, -⟩ := validate_spec h
  have := (List.getElem?_eq_some_iff.mp h1).1
  omega

theorem valid_last_zero {bs : Lbs} (h : validate_lbs bs = true) :
    bs[bs.length - 1]? = some false := by
  obtain ⟨h0, h1, hpre, htot⟩ := validate_spec h
  have hL : 2 ≤ bs.length := valid_length h
  have hlt : bs.length - 1 < bs.length := by omega
  obtain ⟨c, hc⟩ : ∃ c, bs[bs.length - 1]? = some c := by
    rw [List.getElem?_eq_getElem hlt]
    exact ⟨_, rfl⟩
  cases c with
  | false => exact hc
  | true =>
    exfalso
    have hstep := countB_take_succ_self true bs (bs.length - 1) hc
    have hstep0 := countB_take_succ_ne (v := false) bs (bs.length - 1) hc (by rfl)
    have htake : bs.take (bs.length - 1 + 1) = bs := by
      rw [show bs.length - 1 + 1 = bs.length by omega, List.take_length]
    rw [htake] at hstep hstep0
    have hp := hpre (bs.length - 2) (by omega)
    rw [show bs.length - 2 + 1 = bs.length - 1 by omega] at hp
    unfold count0 count1 at hp htot
    omega

theorem select0_last {bs : Lbs} (h : validate_lbs bs = true) :
    select0 bs (count0 bs) = some (bs.length - 1) := by
  have hz := valid_last_zero h
  have hL : 2 ≤ bs.length := valid_length h
  unfold select0
  apply selectB_unique hz
  rw [show bs.length - 1 + 1 = bs.length by omega, List.take_length]
  rfl

/-! ## The zero-delimited block of a node -/

theorem block_exists {bs : Lbs} {n : Nat} (hv : validate_lbs bs = true)
    (h1 : 1 ≤ n) (h2 : n ≤ count1 bs) :
    ∃ s₀ s₁, Block bs n s₀ s₁ := by
  obtain ⟨h0, hb1, hpre, htot⟩ := validate_spec hv
  have h2' : n ≤ countB true bs := h2
  have htot' : countB false bs = countB true bs + 1 := htot
  obtain ⟨s₀, hs₀⟩ := selectB_isSome (v := false) (l := bs) h1 (by omega)
  obtain ⟨s₁, hs₁⟩ :=
    selectB_isSome (v := false) (l := bs) (show 1 ≤ n + 1 by omega) (by omega)
  obtain ⟨hb₀, hc₀⟩ := selectB_eq_some hs₀
  obtain ⟨hb₁, hc₁⟩ := selectB_eq_some hs₁
  have hlt : s₀ < s₁ := selectB_mono hs₀ hs₁
  have hlen : s₁ < bs.length := selectB_lt_length hs₁
  have hpos : 1 ≤ s₀ := by
    rcases Nat.eq_zero_or_pos s₀ with hz | hz
    · subst hz
      rw [h0] at hb₀
      simp at hb₀
    · exact hz
  refine ⟨s₀, s₁, hs₀, hs₁, hpos, hlt, hlen, hb₀, hb₁, ?_⟩
  intro p hp₀ hp₁
  have hplen : p < bs.length := by omega
  obtain ⟨c, hc⟩ : ∃ c, bs[p]? = some c := by
    rw [List.getElem?_eq_getElem hplen]
    exact ⟨_, rfl⟩
  cases c with
  | true => exact hc
  | false =>
    exfalso
    have hstep := countB_take_succ_self false bs p hc
    have hm1 := countB_take_mono false bs (show s₀ + 1 ≤ p by omega)
    have hm2 := countB_take_mono false bs (show p + 1 ≤ s₁ by omega)
    have hstep1 := countB_take_succ_self false bs s₁ hb₁
    omega

theorem block_of_eq {bs : Lbs} {n s₀ s₁ : Nat} (hv : validate_lbs bs = true)
    (h1 : 1 ≤ n) (h2 : n ≤ count1 bs)
    (hs0 : select0 bs n = some s₀) (hs1 : select0 bs (n + 1) = some s₁) :
    Block bs n s₀ s₁ := by
  obtain ⟨a, b, hB⟩ := block_exists hv h1 h2
  have ha : a = s₀ := by
    rw [hB.sel0] at hs0
    exact Option.some.inj hs0
  have hb : b = s₁ := by
    rw [hB.sel1] at hs1
    exact Option.some.inj hs1
  subst ha
  subst hb
  exact hB

theorem block_rank0 {bs : Lbs} {n s₀ s₁ p : Nat} (hB : Block bs n s₀ s₁)
    (hp1 : s₀ ≤ p) (hp2 : p < s₁) : rank0 bs p = n := by
  have hc₀ := (select0_eq_some hB.sel0).2
  have hc₁ := (select0_eq_some hB.sel1).2
  have hstep1 := countB_take_succ_self false bs s₁ hB.bit1
  have hm1 := countB_take_mono false bs (show s₀ + 1 ≤ p + 1 by omega)
  have hm2 := countB_take_mono false bs (show p + 1 ≤ s₁ by omega)
  unfold rank0 rankB
  omega

/-! ## Iterator step lemmas -/

theorem cursA_ge {bs : Lbs} {n s₀ s₁ : Nat} {it : ChildIndexIter}
    (inv : IterInv bs n s₀ s₁ it) : s₀ + 1 ≤ cursA s₀ it := by
  unfold cursA
  cases h : it.start with
  | none => simp
  | some a => simpa using (inv.hstart a h).1

theorem cursA_le {bs : Lbs} {n s₀ s₁ : Nat} {it : ChildIndexIter}
    (hB : Block bs n s₀ s₁) (inv : IterInv bs n s₀ s₁ it) : cursA s₀ it ≤ s₁ := by
  unfold cursA
  cases h : it.start with
  | none => simpa using hB.lt
  | some a => simpa using (inv.hstart a h).2

theorem cursB_ge {bs : Lbs} {n s₀ s₁ : Nat} {it : ChildIndexIter}
    (hB : Block bs n s₀ s₁) (inv : IterInv bs n s₀ s₁ it) : s₀ ≤ cursB s₁ it := by
  have hlt := hB.lt
  unfold cursB
  cases h : it.stop with
  | none => simp; omega
  | some e => simpa using (inv.hstop e h).1

theorem cursB_le {bs : Lbs} {n s₀ s₁ : Nat} {it : ChildIndexIter}
    (inv : IterInv bs n s₀ s₁ it) : cursB s₁ it ≤ s₁ - 1 := by
  unfold cursB
  cases h : it.stop with
  | none => simp
  | some e => simpa using (inv.hstop e h).2

theorem inv_set_start {bs : Lbs} {n s₀ s₁ a : Nat} {it : ChildIndexIter}
    (inv : IterInv bs n s₀ s₁ it)
    (h1 : s₀ + 1 ≤ a) (h2 : a ≤ s₁) (h3 : a ≤ cursB s₁ it + 1) :
    IterInv bs n s₀ s₁ { it with start := some a } := by
  refine ⟨inv.hlbs, inv.hnode, ?_, inv.hstop, ?_⟩
  · intro x hx
    obtain rfl : a = x := by simpa using hx
    exact ⟨h1, h2⟩
  · simpa [cursA, cursB] using h3

theorem inv_set_stop {bs : Lbs} {n s₀ s₁ e : Nat} {it : ChildIndexIter}
    (inv : IterInv bs n s₀ s₁ it)
    (h1 : s₀ ≤ e) (h2 : e ≤ s₁ - 1) (h3 : cursA s₀ it ≤ e + 1) :
    IterInv bs n s₀ s₁ { it with stop := some e } := by
  refine ⟨inv.hlbs, inv.hnode, inv.hstart, ?_, ?_⟩
  · intro x hx
    obtain rfl : e = x := by simpa using hx
    exact ⟨h1, h2⟩
  · simpa [cursA, cursB] using h3

theorem next_eq {bs : Lbs} {n s₀ s₁ : Nat} (hB : Block bs n s₀ s₁) {it : ChildIndexIter}
    (inv : IterInv bs n s₀ s₁ it) :
    it.next =
      if cursA s₀ it ≤ cursB s₁ it then
        some (some (cursA s₀ it), { it with start := some (cursA s₀ it + 1) })
      else
        some (none, { it with start := some (cursA s₀ it) }) := by
  have hlt := hB.lt
  have hpos := hB.pos
  cases hst : it.start with
  | some a =>
    have ha := inv.hstart a hst
    cases hsp : it.stop with
    | some e =>
      by_cases hae : a ≤ e
      · simp [ChildIndexIter.next, ChildIndexIter.resolveStart, cursA, cursB, hst, hsp, hae]
      · simp [ChildIndexIter.next, ChildIndexIter.resolveStart, cursA, cursB, hst, hsp, hae]
    | none =>
      by_cases hae : a ≤ s₁ - 1
      · have hbit : bs[a]? = some true := hB.ones a (by omega) (by omega)
        simp [ChildIndexIter.next, ChildIndexIter.resolveStart, cursA, cursB, hst, hsp, hae,
          inv.hlbs, hbit]
      · have haeq : a = s₁ := by omega
        have hbit : bs[a]? = some false := haeq ▸ hB.bit1
        simp [ChildIndexIter.next, ChildIndexIter.resolveStart, cursA, cursB, hst, hsp, hae,
          inv.hlbs, hbit]
  | none =>
    have hres : it.resolveStart = some (s₀ + 1) := by
      simp [ChildIndexIter.resolveStart, hst, inv.hlbs, inv.hnode, hB.sel0]
    cases hsp : it.stop with
    | some e =>
      by_cases hae : s₀ + 1 ≤ e
      · simp [ChildIndexIter.next, hres, cursA, cursB, hst, hsp, hae]
      · simp [ChildIndexIter.next, hres, cursA, cursB, hst, hsp, hae]
    | none =>
      by_cases hae : s₀ + 1 ≤ s₁ - 1
      · have hbit : bs[s₀ + 1]? = some true := hB.ones _ (by omega) (by omega)
        simp [ChildIndexIter.next, hres, cursA, cursB, hst, hsp, hae, inv.hlbs, hbit]
      · have haeq : s₀ + 1 = s₁ := by omega
        have hbit : bs[s₀ + 1]? = some false := by
          rw [haeq]
          exact hB.bit1
        simp [ChildIndexIter.next, hres, cursA, cursB, hst, hsp, hae, inv.hlbs, hbit]

theorem back_eq {bs : Lbs} {n s₀ s₁ : Nat} (hB : Block bs n s₀ s₁) {it : ChildIndexIter}
    (inv : IterInv bs n s₀ s₁ it) :
    it.nextBack =
      if cursA s₀ it ≤ cursB s₁ it then
        some (some (cursB s₁ it), { it with stop := some (cursB s₁ it - 1) })
      else
        some (none, { it with stop := some (cursB s₁ it) }) := by
  have hlt := hB.lt
  have hpos := hB.pos
  cases hsp : it.stop with
  | some e =>
    have he := inv.hstop e hsp
    cases hst : it.start with
    | some a =>
      by_cases hae : a ≤ e
      · simp [ChildIndexIter.nextBack, ChildIndexIter.resolveStop, cursA, cursB, hst, hsp, hae]
      · simp [ChildIndexIter.nextBack, ChildIndexIter.resolveStop, cursA, cursB, hst, hsp, hae]
    | none =>
      by_cases hae : s₀ + 1 ≤ e
      · have hbit : bs[e]? = some true := hB.ones e (by omega) (by omega)
        simp [ChildIndexIter.nextBack, ChildIndexIter.resolveStop, cursA, cursB, hst, hsp, hae,
          inv.hlbs, hbit]
      · have haeq : e = s₀ := by omega
        have hbit : bs[e]? = some false := haeq ▸ hB.bit0
        simp [ChildIndexIter.nextBack, ChildIndexIter.resolveStop, cursA, cursB, hst, hsp, hae,
          inv.hlbs, hbit]
  | none =>
    have hres : it.resolveStop = some (s₁ - 1) := by
      simp [ChildIndexIter.resolveStop, hsp, inv.hlbs, inv.hnode, hB.sel1]
    cases hst : it.start with
    | some a =>
      have ha := inv.hstart a hst
      by_cases hae : a ≤ s₁ - 1
      · simp [ChildIndexIter.nextBack, hres, cursA, cursB, hst, hsp, hae]
      · simp [ChildIndexIter.nextBack, hres, cursA, cursB, hst, hsp, hae]
    | none =>
      by_cases hae : s₀ + 1 ≤ s₁ - 1
      · have hbit : bs[s₁ - 1]? = some true := hB.ones _ (by omega) (by omega)
        simp [ChildIndexIter.nextBack, hres, cursA, cursB, hst, hsp, hae, inv.hlbs, hbit]
      · have haeq : s₁ - 1 = s₀ := by omega
        have hbit : bs[s₁ - 1]? = some false := by
          rw [haeq]
          exact hB.bit0
        simp [ChildIndexIter.nextBack, hres, cursA, cursB, hst, hsp, hae, inv.hlbs, hbit]

/-! ## Driving the iterator -/

theorem iterInv_fresh {bs : Lbs} {n s₀ s₁ : Nat} (hB : Block bs n s₀ s₁) :
    IterInv bs n s₀ s₁ ⟨bs, n, none, none⟩ := by
  refine ⟨rfl, rfl, ?_, ?_, ?_⟩
  · intro a ha
    simp at ha
  · intro e he
    simp at he
  · have := hB.lt
    simp [cursA, cursB]
    omega

theorem run_spec {bs : Lbs} {n s₀ s₁ : Nat} (hB : Block bs n s₀ s₁) :
    ∀ (ds : List Bool) (it : ChildIndexIter), IterInv bs n s₀ s₁ it →
    ∃ it', run ds it =
        some (List.range' (cursA s₀ it) (cursA s₀ it' - cursA s₀ it),
          (List.range' (cursB s₁ it' + 1) (cursB s₁ it - cursB s₁ it')).reverse,
          it') ∧
      IterInv bs n s₀ s₁ it' ∧
      cursA s₀ it ≤ cursA s₀ it' ∧ cursB s₁ it' ≤ cursB s₁ it := by
  intro ds
  induction ds with
  | nil =>
    intro it inv
    refine ⟨it, ?_, inv, Nat.le_refl _, Nat.le_refl _⟩
    simp [run]
  | cons d ds ih =>
    intro it inv
    cases d with
    | true =>
      have hnext := next_eq hB inv
      by_cases hg : cursA s₀ it ≤ cursB s₁ it
      · rw [if_pos hg] at hnext
        have hA1 : cursA s₀ { it with start := some (cursA s₀ it + 1) } = cursA s₀ it + 1 := by
          simp [cursA]
        have hB1 : cursB s₁ { it with start := some (cursA s₀ it + 1) } = cursB s₁ it := rfl
        have inv1 : IterInv bs n s₀ s₁ { it with start := some (cursA s₀ it + 1) } :=
          inv_set_start inv (by have := cursA_ge inv; omega)
            (by have := cursB_le inv; have := hB.lt; omega) (by omega)
        obtain ⟨it2, hrun, inv2, hA2, hB2⟩ := ih _ inv1
        rw [hA1, hB1] at hrun
        rw [hA1] at hA2
        rw [hB1] at hB2
        refine ⟨it2, ?_, inv2, by omega, hB2⟩
        rw [show cursA s₀ it2 - cursA s₀ it = (cursA s₀ it2 - (cursA s₀ it + 1)) + 1 by omega,
          List.range'_succ]
        simp only [run, hnext, hrun, Option.toList_some, List.singleton_append]
      · rw [if_neg hg] at hnext
        have hA1 : cursA s₀ { it with start := some (cursA s₀ it) } = cursA s₀ it := by
          simp [cursA]
        have hB1 : cursB s₁ { it with start := some (cursA s₀ it) } = cursB s₁ it := rfl
        have inv1 : IterInv bs n s₀ s₁ { it with start := some (cursA s₀ it) } :=
          inv_set_start inv (cursA_ge inv) (cursA_le hB inv) inv.hcross
        obtain ⟨it2, hrun, inv2, hA2, hB2⟩ := ih _ inv1
        rw [hA1, hB1] at hrun
        rw [hA1] at hA2
        rw [hB1] at hB2
        refine ⟨it2, ?_, inv2, hA2, hB2⟩
        simp only [run, hnext, hrun, Option.toList_none, List.nil_append]
    | false =>
      have hback := back_eq hB inv
      by_cases hg : cursA s₀ it ≤ cursB s₁ it
      · rw [if_pos hg] at hback
        have hA1 : cursA s₀ { it with stop := some (cursB s₁ it - 1) } = cursA s₀ it := rfl
        have hB1 : cursB s₁ { it with stop := some (cursB s₁ it - 1) } = cursB s₁ it - 1 := by
          simp [cursB]
        have hBpos : s₀ + 1 ≤ cursB s₁ it := by
          have := cursA_ge inv
          omega
        have inv1 : IterInv bs n s₀ s₁ { it with stop := some (cursB s₁ it - 1) } :=
          inv_set_stop inv (by omega) (by have := cursB_le inv; omega) (by omega)
        obtain ⟨it2, hrun, inv2, hA2, hB2⟩ := ih _ inv1
        rw [hA1, hB1] at hrun
        rw [hA1] at hA2
        rw [hB1] at hB2
        refine ⟨it2, ?_, inv2, hA2, by omega⟩
        rw [show cursB s₁ it - cursB s₁ it2 = (cursB s₁ it - 1 - cursB s₁ it2) + 1 by omega,
          List.range'_1_concat,
          show cursB s₁ it2 + 1 + (cursB s₁ it - 1 - cursB s₁ it2) = cursB s₁ it by omega]
        simp only [run, hback, hrun, Option.toList_some, List.reverse_append,
          List.reverse_cons, List.reverse_nil, List.nil_append, List.singleton_append]
      · rw [if_neg hg] at hback
        have hA1 : cursA s₀ { it with stop := some (cursB s₁ it) } = cursA s₀ it := rfl
        have hB1 : cursB s₁ { it with stop := some (cursB s₁ it) } = cursB s₁ it := by
          simp [cursB]
        have inv1 : IterInv bs n s₀ s₁ { it with stop := some (cursB s₁ it) } :=
          inv_set_stop inv (cursB_ge hB inv) (cursB_le inv) inv.hcross
        obtain ⟨it2, hrun, inv2, hA2, hB2⟩ := ih _ inv1
        rw [hA1, hB1] at hrun
        rw [hA1] at hA2
        rw [hB1] at hB2
        refine ⟨it2, ?_, inv2, hA2, hB2⟩
        simp only [run, hback, hrun, Option.toList_none, List.nil_append]

theorem collectFwd_spec {bs : Lbs} {n s₀ s₁ : Nat} (hB : Block bs n s₀ s₁) :
    ∀ (fuel : Nat) (it : ChildIndexIter), IterInv bs n s₀ s₁ it →
    cursB s₁ it + 2 - cursA s₀ it ≤ fuel →
    ∃ it', collectFwd fuel it =
        some (List.range' (cursA s₀ it) (cursB s₁ it + 1 - cursA s₀ it), it') ∧
      IterInv bs n s₀ s₁ it' ∧
      cursA s₀ it' = cursB s₁ it + 1 ∧ cursB s₁ it' = cursB s₁ it := by
  intro fuel
  induction fuel with
  | zero =>
    intro it inv hfuel
    exfalso
    have := inv.hcross
    omega
  | succ fuel ih =>
    intro it inv hfuel
    have hnext := next_eq hB inv
    by_cases hg : cursA s₀ it ≤ cursB s₁ it
    · rw [if_pos hg] at hnext
      have hA1 : cursA s₀ { it with start := some (cursA s₀ it + 1) } = cursA s₀ it + 1 := by
        simp [cursA]
      have hB1 : cursB s₁ { it with start := some (cursA s₀ it + 1) } = cursB s₁ it := rfl
      have inv1 : IterInv bs n s₀ s₁ { it with start := some (cursA s₀ it + 1) } :=
        inv_set_start inv (by have := cursA_ge inv; omega)
          (by have := cursB_le inv; have := hB.lt; omega) (by omega)
      obtain ⟨it2, hrec, inv2, hA2, hB2⟩ := ih _ inv1 (by rw [hA1, hB1]; omega)
      rw [hA1, hB1] at hrec
      rw [hB1] at hA2
      rw [hB1] at hB2
      refine ⟨it2, ?_, inv2, hA2, hB2⟩
      rw [show cursB s₁ it + 1 - cursA s₀ it = (cursB s₁ it + 1 - (cursA s₀ it + 1)) + 1 by omega,
        List.range'_succ]
      simp only [collectFwd, hnext, hrec]
    · rw [if_neg hg] at hnext
      have hx : cursB s₁ it + 1 - cursA s₀ it = 0 := by omega
      have hA1 : cursA s₀ { it with start := some (cursA s₀ it) } = cursA s₀ it := by
        simp [cursA]
      have hB1 : cursB s₁ { it with start := some (cursA s₀ it) } = cursB s₁ it := rfl
      have inv1 : IterInv bs n s₀ s₁ { it with start := some (cursA s₀ it) } :=
        inv_set_start inv (cursA_ge inv) (cursA_le hB inv) inv.hcross
      refine ⟨{ it with start := some (cursA s₀ it) }, ?_, inv1, ?_, hB1⟩
      · rw [hx, List.range'_zero]
        simp only [collectFwd, hnext]
      · rw [hA1]
        have := inv.hcross
        omega

theorem collectBwd_spec {bs : Lbs} {n s₀ s₁ : Nat} (hB : Block bs n s₀ s₁) :
    ∀ (fuel : Nat) (it : ChildIndexIter), IterInv bs n s₀ s₁ it →
    cursB s₁ it + 2 - cursA s₀ it ≤ fuel →
    ∃ it', collectBwd fuel it =
        some ((List.range' (cursA s₀ it) (cursB s₁ it + 1 - cursA s₀ it)).reverse, it') ∧
      IterInv bs n s₀ s₁ it' ∧
      cursA s₀ it' = cursA s₀ it ∧ cursB s₁ it' = cursA s₀ it - 1 := by
  intro fuel
  induction fuel with
  | zero =>
    intro it inv hfuel
    exfalso
    have := inv.hcross
    omega
  | succ fuel ih =>
    intro it inv hfuel
    have hback := back_eq hB inv
    by_cases hg : cursA s₀ it ≤ cursB s₁ it
    · rw [if_pos hg] at hback
      have hA1 : cursA s₀ { it with stop := some (cursB s₁ it - 1) } = cursA s₀ it := rfl
      have hB1 : cursB s₁ { it with stop := some (cursB s₁ it - 1) } = cursB s₁ it - 1 := by
        simp [cursB]
      have hBpos : s₀ + 1 ≤ cursB s₁ it := by
        have := cursA_ge inv
        omega
      have inv1 : IterInv bs n s₀ s₁ { it with stop := some (cursB s₁ it - 1) } :=
        inv_set_stop inv (by omega) (by have := cursB_le inv; omega) (by omega)
      obtain ⟨it2, hrec, inv2, hA2, hB2⟩ := ih _ inv1 (by rw [hA1, hB1]; omega)
      rw [hA1, hB1] at hrec
      rw [hA1] at hA2
      rw [hA1] at hB2
      refine ⟨it2, ?_, inv2, hA2, hB2⟩
      rw [show cursB s₁ it + 1 - cursA s₀ it = (cursB s₁ it - 1 + 1 - cursA s₀ it) + 1 by omega,
        List.range'_1_concat,
        show cursA s₀ it + (cursB s₁ it - 1 + 1 - cursA s₀ it) = cursB s₁ it by omega]
      simp only [collectBwd, hback, hrec, List.reverse_append, List.reverse_cons,
        List.reverse_nil, List.nil_append, List.singleton_append]
    · rw [if_neg hg] at hback
      have hx : cursB s₁ it + 1 - cursA s₀ it = 0 := by omega
      have hA1 : cursA s₀ { it with stop := some (cursB s₁ it) } = cursA s₀ it := rfl
      have hB1 : cursB s₁ { it with stop := some (cursB s₁ it) } = cursB s₁ it := by
        simp [cursB]
      have inv1 : IterInv bs n s₀ s₁ { it with stop := some (cursB s₁ it) } :=
        inv_set_stop inv (cursB_ge hB inv) (cursB_le inv) inv.hcross
      refine ⟨{ it with stop := some (cursB s₁ it) }, ?_, inv1, hA1, ?_⟩
      · rw [hx, List.range'_zero]
        simp only [collectBwd, hback, List.reverse_nil]
      · rw [hB1]
        have := inv.hcross
        omega

theorem len_fresh {bs : Lbs} {n s₀ s₁ : Nat} (hB : Block bs n s₀ s₁) :
    ChildIndexIter.len ⟨bs, n, none, none⟩
      = some (s₁ - 1 + 1 - (s₀ + 1), ⟨bs, n, some (s₀ + 1), some (s₁ - 1)⟩) := by
  simp [ChildIndexIter.len, ChildIndexIter.resolveStart, ChildIndexIter.resolveStop,
    hB.sel0, hB.sel1]

/-! ## Claim-level helper lemmas -/

theorem range'_glue {s a e : Nat} (h1 : s ≤ a) (h2 : a ≤ e + 1) :
    List.range' s (a - s) ++ List.range' a (e + 1 - a) = List.range' s (e + 1 - s) := by
  have h := List.range'_append_1 s (a - s) (e + 1 - a)
  rw [show s + (a - s) = a by omega] at h
  rw [h, show e + 1 - a + (a - s) = e + 1 - s by omega]

theorem parent_to_children_eq {bs : Lbs} {n s₀ s₁ : Nat} (hB : Block bs n s₀ s₁)
    (h1 : 1 ≤ n) :
    parent_to_children bs n = some (List.range' (s₀ + 1) (s₁ - 1 + 1 - (s₀ + 1))) := by
  have hfresh := iterInv_fresh hB
  have hA : cursA s₀ (⟨bs, n, none, none⟩ : ChildIndexIter) = s₀ + 1 := rfl
  have hBc : cursB s₁ (⟨bs, n, none, none⟩ : ChildIndexIter) = s₁ - 1 := rfl
  obtain ⟨it', hcoll, -, -, -⟩ := collectFwd_spec hB (bs.length + 1) _ hfresh (by
    rw [hA, hBc]
    have := hB.lt_len
    have := hB.lt
    omega)
  rw [hA, hBc] at hcoll
  have hn0 : ¬ n = 0 := by omega
  have hpc : parent_to_children_indices bs n = some ⟨bs, n, none, none⟩ := by
    simp [parent_to_children_indices, hn0]
  simp only [parent_to_children, hpc, hcoll, Option.map_some']

theorem next_fresh_oob {bs : Lbs} {n : Nat} (hv : validate_lbs bs = true)
    (hn : count1 bs < n) : ChildIndexIter.next ⟨bs, n, none, none⟩ = none := by
  obtain ⟨b0, b1, hpre, htot⟩ := validate_spec hv
  have hL := valid_length hv
  rcases Nat.lt_or_ge (count1 bs + 1) n with hgt | hge
  · have hsel : select0 bs n = none := by
      cases h : selectB false bs n with
      | none => exact h
      | some j =>
        exfalso
        have hr : n ≤ count0 bs := (selectB_range h).2
        omega
    simp [ChildIndexIter.next, ChildIndexIter.resolveStart, hsel]
  · have hneq : n = count1 bs + 1 := by omega
    have hsel : select0 bs n = some (bs.length - 1) := by
      rw [hneq, show count1 bs + 1 = count0 bs from htot.symm]
      exact select0_last hv
    have hoob : bs[bs.length - 1 + 1]? = none := by
      apply List.getElem?_eq_none
      omega
    simp [ChildIndexIter.next, ChildIndexIter.resolveStart, hsel, hoob]

/-! ## The claims -/

/-- C1: for every validly constructed tree and every real node `n`
(`1 ≤ n ≤ N` where `N` is the number of '1' bits of the LBS), translating the
node number to its position and back is the identity:
`index_to_node_num (node_num_to_index n) = n`. -/
theorem c1_round_trip {bs : Lbs} {n : Nat} (hv : validate_lbs bs = true)
    (h1 : 1 ≤ n) (h2 : n ≤ count1 bs) :
    (node_num_to_index bs n).bind (index_to_node_num bs) = some n := by
  obtain ⟨i, hi⟩ := selectB_isSome (v := true) (l := bs) h1 h2
  obtain ⟨hbit, hcount⟩ := selectB_eq_some hi
  have hn0 : ¬ n = 0 := by omega
  have hidx : index_to_node_num bs i = some n := by
    simp only [index_to_node_num, hbit]
    simp [rank1, rankB, hcount]
  simp [node_num_to_index, hn0, select1, hi, hidx]

/-- Witness for C1: the reference tree, node 8. -/
theorem c1_round_trip_witness :
    validate_lbs refLbs = true ∧ 1 ≤ 8 ∧ 8 ≤ count1 refLbs ∧
    (node_num_to_index refLbs 8).bind (index_to_node_num refLbs) = some 8 :=
  ⟨by decide, by decide, by decide, c1_round_trip (by decide) (by decide) (by decide)⟩

/-- C2: for every validly constructed tree, every real node `n` and every
position `p` yielded by `parent_to_children n`, the parent lookup at `p`
returns `n`. -/
theorem c2_parent_child_consistency {bs : Lbs} {n p : Nat} {l : List Nat}
    (hv : validate_lbs bs = true) (h1 : 1 ≤ n) (h2 : n ≤ count1 bs)
    (hl : parent_to_children bs n = some l) (hp : p ∈ l) :
    child_to_parent bs p = some n := by
  obtain ⟨s₀, s₁, hB⟩ := block_exists hv h1 h2
  have hlt := hB.lt
  have hpos := hB.pos
  rw [parent_to_children_eq hB h1] at hl
  obtain rfl : List.range' (s₀ + 1) (s₁ - 1 + 1 - (s₀ + 1)) = l := Option.some.inj hl
  rw [List.mem_range'_1] at hp
  have hone : bs[p]? = some true := hB.ones p (by omega) (by omega)
  simp only [child_to_parent, hone]
  rw [if_neg (by omega : ¬ p = 0)]
  rw [block_rank0 hB (by omega) (by omega)]

/-- Witness for C2: the reference tree, node 8, child position 18. -/
theorem c2_parent_child_consistency_witness :
    validate_lbs refLbs = true ∧ 1 ≤ 8 ∧ 8 ≤ count1 refLbs ∧
    parent_to_children refLbs 8 = some [17, 18] ∧ 18 ∈ [17, 18] ∧
    child_to_parent refLbs 18 = some 8 :=
  ⟨by decide, by decide, by decide, by decide, by decide,
    c2_parent_child_consistency (n := 8) (p := 18) (l := [17, 18])
      (by decide) (by decide) (by decide) (by decide) (by decide)⟩

/-- C4: for every validly constructed tree and every real node `n`, the
children occupy exactly the closed position range
`[select0 n + 1, select0 (n+1) - 1]`, and `parent_to_children n` returns
exactly the positions of that range in increasing order; the result is empty
(a leaf) exactly when the range is empty. -/
theorem c4_children_range {bs : Lbs} {n s₀ s₁ p : Nat}
    (hv : validate_lbs bs = true) (h1 : 1 ≤ n) (h2 : n ≤ count1 bs)
    (hs0 : select0 bs n = some s₀) (hs1 : select0 bs (n + 1) = some s₁) :
    parent_to_children bs n = some (List.range' (s₀ + 1) (s₁ - 1 - s₀)) ∧
    (p ∈ List.range' (s₀ + 1) (s₁ - 1 - s₀) ↔ s₀ + 1 ≤ p ∧ p ≤ s₁ - 1) ∧
    List.Pairwise (· < ·) (List.range' (s₀ + 1) (s₁ - 1 - s₀)) ∧
    (List.range' (s₀ + 1) (s₁ - 1 - s₀) = [] ↔ s₁ - 1 < s₀ + 1) := by
  have hB := block_of_eq hv h1 h2 hs0 hs1
  have hlt := hB.lt
  have hpos := hB.pos
  refine ⟨?_, ?_, ?_, ?_⟩
  · rw [parent_to_children_eq hB h1,
      show s₁ - 1 + 1 - (s₀ + 1) = s₁ - 1 - s₀ by omega]
  · rw [List.mem_range'_1]
    omega
  · exact List.pairwise_lt_range' _ _
  · rw [List.range'_eq_nil]
    omega

/-- Witness for C4: the reference tree, node 1 (block positions 1 and 5),
test position 3. -/
theorem c4_children_range_witness :
    validate_lbs refLbs = true ∧ 1 ≤ 1 ∧ 1 ≤ count1 refLbs ∧
    select0 refLbs 1 = some 1 ∧ select0 refLbs 2 = some 5 ∧
    (parent_to_children refLbs 1 = some (List.range' (1 + 1) (5 - 1 - 1)) ∧
     (3 ∈ List.range' (1 + 1) (5 - 1 - 1) ↔ 1 + 1 ≤ 3 ∧ 3 ≤ 5 - 1) ∧
     List.Pairwise (· < ·) (List.range' (1 + 1) (5 - 1 - 1)) ∧
     (List.range' (1 + 1) (5 - 1 - 1) = [] ↔ 5 - 1 < 1 + 1)) :=
  ⟨by decide, by decide, by decide, by decide, by decide,
    c4_children_range (p := 3) (by decide) (by decide) (by decide) (by decide) (by decide)⟩

/-- C5: the concrete scenario on the reference tree built from the LBS
`"10_1110_10_0_1110_0_0_10_110_0_0_0"`. -/
theorem c5_reference_scenario :
    node_num_to_index refLbs 8 = some 11 ∧
    index_to_node_num refLbs 11 = some 8 ∧
    parent_to_children refLbs 8 = some [17, 18] ∧
    child_to_parent refLbs 18 = some 8 ∧
    parent_to_children refLbs 1 = some [2, 3, 4] := by
  refine ⟨?_, ?_, ?_, ?_, ?_⟩ <;> decide

/-- C10: for every validly constructed tree and every real node `n`,
`select0 (n+1) ≥ select0 n + 1`, so the resolved bounds of `len` satisfy
`end + 1 ≥ start`, the unsigned subtraction `end + 1 - start` cannot
underflow, and `len` succeeds on the fresh iterator of every valid node,
leaves included. -/
theorem c10_no_underflow {bs : Lbs} {n s₀ s₁ : Nat}
    (hv : validate_lbs bs = true) (h1 : 1 ≤ n) (h2 : n ≤ count1 bs)
    (hs0 : select0 bs n = some s₀) (hs1 : select0 bs (n + 1) = some s₁) :
    parent_to_children_indices bs n = some ⟨bs, n, none, none⟩ ∧
    s₀ + 1 ≤ s₁ ∧ s₀ + 1 ≤ s₁ - 1 + 1 ∧
    ChildIndexIter.len ⟨bs, n, none, none⟩
      = some (s₁ - 1 + 1 - (s₀ + 1), ⟨bs, n, some (s₀ + 1), some (s₁ - 1)⟩) := by
  have hB := block_of_eq hv h1 h2 hs0 hs1
  have hlt := hB.lt
  have hpos := hB.pos
  refine ⟨?_, by omega, by omega, len_fresh hB⟩
  simp [parent_to_children_indices, show ¬ n = 0 by omega]

/-- Witness for C10: the reference tree, leaf node 3 (block positions 7, 8). -/
theorem c10_no_underflow_witness :
    validate_lbs refLbs = true ∧ 1 ≤ 3 ∧ 3 ≤ count1 refLbs ∧
    select0 refLbs 3 = some 7 ∧ select0 refLbs 4 = some 8 ∧
    (parent_to_children_indices refLbs 3 = some ⟨refLbs, 3, none, none⟩ ∧
     7 + 1 ≤ 8 ∧ 7 + 1 ≤ 8 - 1 + 1 ∧
     ChildIndexIter.len ⟨refLbs, 3, none, none⟩
       = some (8 - 1 + 1 - (7 + 1), ⟨refLbs, 3, some (7 + 1), some (8 - 1)⟩)) :=
  ⟨by decide, by decide, by decide, by decide, by decide,
    c10_no_underflow (by decide) (by decide) (by decide) (by decide) (by decide)⟩

/-- C7: for every validly constructed tree and every real node `n`, `len` on a
fresh children iterator equals `end + 1 - start` with `start = select0 n + 1`
and `end = select0 (n+1) - 1`, which equals the number of items obtained by
exhausting the iterator forward; for a node whose terminator is immediately
followed by a '0' bit (a leaf) the length is 0 and `is_empty` returns true. -/
theorem c7_length_agreement {bs : Lbs} {n s₀ s₁ : Nat}
    (hv : validate_lbs bs = true) (h1 : 1 ≤ n) (h2 : n ≤ count1 bs)
    (hs0 : select0 bs n = some s₀) (hs1 : select0 bs (n + 1) = some s₁) :
    parent_to_children_indices bs n = some ⟨bs, n, none, none⟩ ∧
    ChildIndexIter.len ⟨bs, n, none, none⟩
      = some (s₁ - 1 + 1 - (s₀ + 1), ⟨bs, n, some (s₀ + 1), some (s₁ - 1)⟩) ∧
    (collectFwd (bs.length + 1) ⟨bs, n, none, none⟩).map (fun q => q.1.length)
      = some (s₁ - 1 + 1 - (s₀ + 1)) ∧
    (bs[s₀ + 1]? = some false →
      s₁ - 1 + 1 - (s₀ + 1) = 0 ∧
      ChildIndexIter.is_empty ⟨bs, n, none, none⟩
        = some (true, ⟨bs, n, some (s₀ + 1), some (s₁ - 1)⟩)) := by
  have hB := block_of_eq hv h1 h2 hs0 hs1
  have hlt := hB.lt
  have hpos := hB.pos
  have hlen := len_fresh hB
  refine ⟨by simp [parent_to_children_indices, show ¬ n = 0 by omega], hlen, ?_, ?_⟩
  · have hA : cursA s₀ (⟨bs, n, none, none⟩ : ChildIndexIter) = s₀ + 1 := rfl
    have hBc : cursB s₁ (⟨bs, n, none, none⟩ : ChildIndexIter) = s₁ - 1 := rfl
    obtain ⟨it', hcoll, -, -, -⟩ := collectFwd_spec hB (bs.length + 1) _ (iterInv_fresh hB) (by
      rw [hA, hBc]
      have := hB.lt_len
      omega)
    rw [hA, hBc] at hcoll
    rw [hcoll]
    simp
  · intro hleaf
    have hs1eq : s₁ = s₀ + 1 := by
      by_contra hne
      have hmid : s₀ < s₀ + 1 := by omega
      have hmid2 : s₀ + 1 < s₁ := by omega
      have := hB.ones (s₀ + 1) hmid hmid2
      rw [this] at hleaf
      simp at hleaf
    refine ⟨by omega, ?_⟩
    unfold ChildIndexIter.is_empty
    rw [hlen]
    simp [show s₁ - 1 + 1 - (s₀ + 1) = 0 by omega]

/-- Witness for C7: the reference tree, leaf node 3. -/
theorem c7_length_agreement_witness :
    validate_lbs refLbs = true ∧ 1 ≤ 3 ∧ 3 ≤ count1 refLbs ∧
    select0 refLbs 3 = some 7 ∧ select0 refLbs 4 = some 8 ∧
    (parent_to_children_indices refLbs 3 = some ⟨refLbs, 3, none, none⟩ ∧
     ChildIndexIter.len ⟨refLbs, 3, none, none⟩
       = some (8 - 1 + 1 - (7 + 1), ⟨refLbs, 3, some (7 + 1), some (8 - 1)⟩) ∧
     (collectFwd (refLbs.length + 1) ⟨refLbs, 3, none, none⟩).map (fun q => q.1.length)
       = some (8 - 1 + 1 - (7 + 1)) ∧
     (refLbs[7 + 1]? = some false →
       8 - 1 + 1 - (7 + 1) = 0 ∧
       ChildIndexIter.is_empty ⟨refLbs, 3, none, none⟩
         = some (true, ⟨refLbs, 3, some (7 + 1), some (8 - 1)⟩))) :=
  ⟨by decide, by decide, by decide, by decide, by decide,
    c7_length_agreement (by decide) (by decide) (by decide) (by decide) (by decide)⟩

/-- C6: iterator symmetry.  Collecting a children range forward and reversing
equals collecting it backward directly; and for any interleaving `ds` of
`next`/`nextBack` calls that leaves the iterator exhausted, the forward yields
followed by the reverse of the backward yields reproduce the full forward
order (each child position exactly once). -/
theorem c6_iterator_symmetry {bs : Lbs} {n : Nat} {ds : List Bool}
    {f b : List Nat} {it₀ it' : ChildIndexIter}
    (hv : validate_lbs bs = true) (h1 : 1 ≤ n) (h2 : n ≤ count1 bs)
    (hit : parent_to_children_indices bs n = some it₀)
    (hrun : run ds it₀ = some (f, b, it'))
    (hex : isExhausted it' = true) :
    ((collectFwd (bs.length + 1) it₀).map (fun q => q.1.reverse)
      = (collectBwd (bs.length + 1) it₀).map (fun q => q.1)) ∧
    f ++ b.reverse = childrenRange bs n ∧
    (f ++ b.reverse).Nodup := by
  obtain ⟨s₀, s₁, hB⟩ := block_exists hv h1 h2
  have hn0 : ¬ n = 0 := by omega
  have hit₀ : it₀ = ⟨bs, n, none, none⟩ := by
    rw [parent_to_children_indices, if_neg hn0] at hit
    exact (Option.some.inj hit).symm
  subst hit₀
  have hfresh := iterInv_fresh hB
  have hA : cursA s₀ (⟨bs, n, none, none⟩ : ChildIndexIter) = s₀ + 1 := rfl
  have hBc : cursB s₁ (⟨bs, n, none, none⟩ : ChildIndexIter) = s₁ - 1 := rfl
  have hlt := hB.lt
  have hpos := hB.pos
  have hlen := hB.lt_len
  have hfuel : cursB s₁ (⟨bs, n, none, none⟩ : ChildIndexIter) + 2
      - cursA s₀ (⟨bs, n, none, none⟩ : ChildIndexIter) ≤ bs.length + 1 := by
    rw [hA, hBc]
    omega
  have hcr : childrenRange bs n = List.range' (s₀ + 1) (s₁ - 1 - s₀) := by
    simp [childrenRange, hB.sel0, hB.sel1]
  have hpart1 : (collectFwd (bs.length + 1) (⟨bs, n, none, none⟩ : ChildIndexIter)).map
      (fun q => q.1.reverse)
      = (collectBwd (bs.length + 1) (⟨bs, n, none, none⟩ : ChildIndexIter)).map
        (fun q => q.1) := by
    obtain ⟨itf, hf, -, -, -⟩ := collectFwd_spec hB (bs.length + 1) _ hfresh hfuel
    obtain ⟨itb, hbk, -, -, -⟩ := collectBwd_spec hB (bs.length + 1) _ hfresh hfuel
    rw [hf, hbk]
    simp
  obtain ⟨it2, hrun', inv2, hA2, hB2⟩ := run_spec hB ds _ hfresh
  rw [hrun'] at hrun
  simp only [Option.some.injEq, Prod.mk.injEq] at hrun
  obtain ⟨hfeq, hbeq, hiteq⟩ := hrun
  subst hiteq
  have hnext := next_eq hB inv2
  have hAB : cursB s₁ it2 + 1 = cursA s₀ it2 := by
    by_cases hg : cursA s₀ it2 ≤ cursB s₁ it2
    · exfalso
      rw [if_pos hg] at hnext
      rw [isExhausted, hnext] at hex
      simp at hex
    · have := inv2.hcross
      omega
  have hA2ge : s₀ + 1 ≤ cursA s₀ it2 := cursA_ge inv2
  have hB2le : cursB s₁ it2 ≤ s₁ - 1 := cursB_le inv2
  have hmain : f ++ b.reverse = childrenRange bs n := by
    rw [← hfeq, ← hbeq, List.reverse_reverse, hcr]
    try rw [hA]
    try rw [hBc]
    rw [show cursB s₁ it2 + 1 = cursA s₀ it2 by omega]
    rw [show s₁ - 1 - cursB s₁ it2 = s₁ - 1 + 1 - cursA s₀ it2 by omega]
    rw [show s₁ - 1 - s₀ = s₁ - 1 + 1 - (s₀ + 1) by omega]
    exact range'_glue (by omega) (by omega)
  exact ⟨hpart1, hmain, by rw [hmain, hcr]; exact List.nodup_range' _ _⟩

/-- Witness for C6: the reference tree, node 1, interleaving
next, nextBack, next, nextBack, next. -/
theorem c6_iterator_symmetry_witness :
    validate_lbs refLbs = true ∧ 1 ≤ 1 ∧ 1 ≤ count1 refLbs ∧
    parent_to_children_indices refLbs 1 = some ⟨refLbs, 1, none, none⟩ ∧
    run [true, false, true, false, true] ⟨refLbs, 1, none, none⟩
      = some ([2, 3], [4], ⟨refLbs, 1, some 4, some 3⟩) ∧
    isExhausted ⟨refLbs, 1, some 4, some 3⟩ = true ∧
    (((collectFwd (refLbs.length + 1) ⟨refLbs, 1, none, none⟩).map (fun q => q.1.reverse)
       = (collectBwd (refLbs.length + 1) ⟨refLbs, 1, none, none⟩).map (fun q => q.1)) ∧
     [2, 3] ++ [4].reverse = childrenRange refLbs 1 ∧
     ([2, 3] ++ [4].reverse).Nodup) :=
  ⟨by decide, by decide, by decide, by decide, by decide, by decide,
    @c6_iterator_symmetry refLbs 1 [true, false, true, false, true]
      [2, 3] [4] ⟨refLbs, 1, none, none⟩ ⟨refLbs, 1, some 4, some 3⟩
      (by decide) (by decide) (by decide) (by decide) (by decide) (by decide)⟩

/-- C8: once the two cursors of the children iterator have met and crossed
(observed as an exhausted `next` or `nextBack`), every subsequent interleaving
of `next` and `nextBack` calls yields nothing in either direction. -/
theorem c8_cross_exhaustion {bs : Lbs} {n : Nat} {ds ds₂ : List Bool}
    {f b : List Nat} {it₀ it' it₁ : ChildIndexIter}
    (hv : validate_lbs bs = true) (h1 : 1 ≤ n) (h2 : n ≤ count1 bs)
    (hit : parent_to_children_indices bs n = some it₀)
    (hrun : run ds it₀ = some (f, b, it'))
    (hstep : it'.next = some (none, it₁) ∨ it'.nextBack = some (none, it₁)) :
    (run ds₂ it₁).map (fun t => (t.1, t.2.1)) = some ([], []) := by
  obtain ⟨s₀, s₁, hB⟩ := block_exists hv h1 h2
  have hn0 : ¬ n = 0 := by omega
  have hit₀ : it₀ = ⟨bs, n, none, none⟩ := by
    rw [parent_to_children_indices, if_neg hn0] at hit
    exact (Option.some.inj hit).symm
  subst hit₀
  obtain ⟨it2, hrun', inv2, -, -⟩ := run_spec hB ds _ (iterInv_fresh hB)
  rw [hrun'] at hrun
  simp only [Option.some.injEq, Prod.mk.injEq] at hrun
  obtain ⟨-, -, hiteq⟩ := hrun
  subst hiteq
  have hnext := next_eq hB inv2
  have hback := back_eq hB inv2
  have hg : ¬ cursA s₀ it2 ≤ cursB s₁ it2 := by
    intro hg
    rcases hstep with h | h
    · rw [if_pos hg] at hnext
      rw [hnext] at h
      simp at h
    · rw [if_pos hg] at hback
      rw [hback] at h
      simp at h
  have hcross := inv2.hcross
  rcases hstep with h | h
  · rw [if_neg hg] at hnext
    rw [hnext] at h
    simp only [Option.some.injEq, Prod.mk.injEq, true_and] at h
    obtain rfl := h
    have inv1 : IterInv bs n s₀ s₁ { it2 with start := some (cursA s₀ it2) } :=
      inv_set_start inv2 (cursA_ge inv2) (cursA_le hB inv2) inv2.hcross
    have hA1 : cursA s₀ { it2 with start := some (cursA s₀ it2) } = cursA s₀ it2 := by
      simp [cursA]
    have hB1 : cursB s₁ { it2 with start := some (cursA s₀ it2) } = cursB s₁ it2 := rfl
    obtain ⟨it3, hrun3, inv3, hA3, hB3⟩ := run_spec hB ds₂ _ inv1
    have hc3 := inv3.hcross
    rw [hA1] at hA3
    rw [hB1] at hB3
    rw [hrun3]
    simp only [Option.map_some']
    rw [hA1, hB1]
    rw [show cursA s₀ it3 - cursA s₀ it2 = 0 by omega]
    rw [show cursB s₁ it2 - cursB s₁ it3 = 0 by omega]
    simp
  · rw [if_neg hg] at hback
    rw [hback] at h
    simp only [Option.some.injEq, Prod.mk.injEq, true_and] at h
    obtain rfl := h
    have inv1 : IterInv bs n s₀ s₁ { it2 with stop := some (cursB s₁ it2) } :=
      inv_set_stop inv2 (cursB_ge hB inv2) (cursB_le inv2) inv2.hcross
    have hA1 : cursA s₀ { it2 with stop := some (cursB s₁ it2) } = cursA s₀ it2 := rfl
    have hB1 : cursB s₁ { it2 with stop := some (cursB s₁ it2) } = cursB s₁ it2 := by
      simp [cursB]
    obtain ⟨it3, hrun3, inv3, hA3, hB3⟩ := run_spec hB ds₂ _ inv1
    have hc3 := inv3.hcross
    rw [hA1] at hA3
    rw [hB1] at hB3
    rw [hrun3]
    simp only [Option.map_some']
    rw [hA1, hB1]
    rw [show cursA s₀ it3 - cursA s₀ it2 = 0 by omega]
    rw [show cursB s₁ it2 - cursB s₁ it3 = 0 by omega]
    simp

/-- Witness for C8: the reference tree, node 1, forward exhaustion then mixed
draws. -/
theorem c8_cross_exhaustion_witness :
    validate_lbs refLbs = true ∧ 1 ≤ 1 ∧ 1 ≤ count1 refLbs ∧
    parent_to_children_indices refLbs 1 = some ⟨refLbs, 1, none, none⟩ ∧
    run [true, true, true] ⟨refLbs, 1, none, none⟩
      = some ([2, 3, 4], [], ⟨refLbs, 1, some 5, none⟩) ∧
    ChildIndexIter.next ⟨refLbs, 1, some 5, none⟩
      = some (none, ⟨refLbs, 1, some 5, none⟩) ∧
    (run [false, true, false] ⟨refLbs, 1, some 5, none⟩).map (fun t => (t.1, t.2.1))
      = some ([], []) :=
  ⟨by decide, by decide, by decide, by decide, by decide, by decide,
    @c8_cross_exhaustion refLbs 1 [true, true, true] [false, true, false]
      [2, 3, 4] [] ⟨refLbs, 1, none, none⟩ ⟨refLbs, 1, some 5, none⟩
      ⟨refLbs, 1, some 5, none⟩
      (by decide) (by decide) (by decide) (by decide) (by decide)
      (Or.inl (by decide))⟩

/-- C3: construction from a token string fails exactly when the string holds a
character other than '1', '0' and '_', or the filtered bit sequence breaks the
LBS invariant: bit 0 is not '1', or bit 1 is not '0', or some prefix has more
'0's than '1's plus one, or the whole sequence does not satisfy
`count0 = count1 + 1`; on every other input construction succeeds. -/
theorem c3_construction_iff (s : List Char) :
    fromStr s = none ↔
      ((∃ c ∈ s, c ≠ '1' ∧ c ≠ '0' ∧ c ≠ '_') ∨
       (tokensToBits s)[0]? ≠ some true ∨
       (tokensToBits s)[1]? ≠ some false ∨
       (∃ i, i < (tokensToBits s).length ∧
         count1 ((tokensToBits s).take (i + 1)) + 1 < count0 ((tokensToBits s).take (i + 1))) ∨
       count0 (tokensToBits s) ≠ count1 (tokensToBits s) + 1) := by
  unfold fromStr
  by_cases hok : tokensOk s = true
  · rw [if_pos hok]
    have hbad : ¬ ∃ c ∈ s, c ≠ '1' ∧ c ≠ '0' ∧ c ≠ '_' := by
      simp only [tokensOk, List.all_eq_true] at hok
      rintro ⟨c, hc, h1, h0, hu⟩
      have := hok c hc
      simp only [Bool.or_eq_true, beq_iff_eq] at this
      rcases this with (h | h) | h
      · exact h1 h
      · exact h0 h
      · exact hu h
    by_cases hval : validate_lbs (tokensToBits s) = true
    · rw [if_pos hval]
      constructor
      · intro h
        simp at h
      · intro h
        exfalso
        obtain ⟨b0, b1, hpre, htot⟩ := validate_spec hval
        rcases h with h | h | h | h | h
        · exact hbad h
        · exact h b0
        · exact h b1
        · obtain ⟨i, hi, hcnt⟩ := h
          have := hpre i hi
          omega
        · exact h htot
    · rw [if_neg hval]
      constructor
      · intro _
        by_cases hA : (tokensToBits s)[0]? = some true
        · by_cases hBb : (tokensToBits s)[1]? = some false
          · by_cases hD : count0 (tokensToBits s) = count1 (tokensToBits s) + 1
            · refine Or.inr (Or.inr (Or.inr (Or.inl ?_)))
              by_contra hC
              push_neg at hC
              apply hval
              rw [validate_iff]
              refine ⟨hA, hBb, ?_, hD⟩
              intro i hi
              have := hC i hi
              omega
            · exact Or.inr (Or.inr (Or.inr (Or.inr hD)))
          · exact Or.inr (Or.inr (Or.inl hBb))
        · exact Or.inr (Or.inl hA)
      · intro _
        rfl
  · rw [if_neg hok]
    constructor
    · intro _
      left
      simp only [tokensOk, List.all_eq_true] at hok
      push_neg at hok
      obtain ⟨c, hc, hcc⟩ := hok
      refine ⟨c, hc, ?_, ?_, ?_⟩ <;>
        · intro h
          apply hcc
          simp [h]
    · intro _
      rfl

/-- C9 counterexample: on the valid tree built from "10_0" (one real node),
node number 2 is out of range, yet the children-iterator constructor
`parent_to_children_indices` succeeds at that call; the failure happens only
at the first iterator advance. -/
theorem c9_counterexample :
    validate_lbs (tokensToBits "10_0".toList) = true ∧
    count1 (tokensToBits "10_0".toList) < 2 ∧
    parent_to_children_indices (tokensToBits "10_0".toList) 2
      = some ⟨tokensToBits "10_0".toList, 2, none, none⟩ ∧
    ChildIndexIter.next ⟨tokensToBits "10_0".toList, 2, none, none⟩ = none := by
  refine ⟨?_, ?_, ?_, ?_⟩ <;> decide

/-- C9 (amended): on a validly constructed tree, `node_num_to_index` panics
exactly for node number 0 or one above the real node count;
`index_to_node_num` panics exactly when the bit at the position is not '1';
`child_to_parent` panics exactly when the bit is not '1' or the position is 0;
the iterator constructors `parent_to_children_indices` and
`parent_to_children_nodes` panic at their call site only for node number 0 —
an out-of-range node number is not detected there, but the first `next` on the
constructed iterator panics; `parent_to_children` (which collects inside the
call) panics exactly for node number 0 or an out-of-range node number. -/
theorem c9_failure_policy {bs : Lbs} (n i : Nat) (hv : validate_lbs bs = true) :
    (node_num_to_index bs n = none ↔ (n = 0 ∨ count1 bs < n)) ∧
    (index_to_node_num bs i = none ↔ bs[i]? ≠ some true) ∧
    (child_to_parent bs i = none ↔ (bs[i]? ≠ some true ∨ i = 0)) ∧
    (parent_to_children_indices bs n = none ↔ n = 0) ∧
    (parent_to_children_nodes bs n = none ↔ n = 0) ∧
    (count1 bs < n →
      (parent_to_children_indices bs n).map ChildIndexIter.next = some none) ∧
    (parent_to_children bs n = none ↔ (n = 0 ∨ count1 bs < n)) := by
  refine ⟨?_, ?_, ?_, ?_, ?_, ?_, ?_⟩
  · unfold node_num_to_index
    by_cases hn0 : n = 0
    · simp [hn0]
    · rw [if_neg hn0]
      constructor
      · intro h
        right
        by_contra hle
        push_neg at hle
        obtain ⟨j, hj⟩ := selectB_isSome (v := true) (l := bs)
          (by omega : 1 ≤ n) hle
        rw [show select1 bs n = selectB true bs n from rfl, hj] at h
        simp at h
      · intro h
        rcases h with h | h
        · exact absurd h hn0
        · cases hsel : select1 bs n with
          | none => rfl
          | some j =>
            exfalso
            have := (selectB_range hsel).2
            have hc : countB true bs = count1 bs := rfl
            omega
  · unfold index_to_node_num
    cases h : bs[i]? with
    | none => simp [h]
    | some c => cases c <;> simp [h]
  · unfold child_to_parent
    cases h : bs[i]? with
    | none => simp [h]
    | some c =>
      cases c with
      | false => simp [h]
      | true =>
        by_cases hi0 : i = 0 <;> simp [h, hi0]
  · unfold parent_to_children_indices
    by_cases hn0 : n = 0 <;> simp [hn0]
  · unfold parent_to_children_nodes parent_to_children_indices
    by_cases hn0 : n = 0 <;> simp [hn0]
  · intro hn
    have hn0 : ¬ n = 0 := by omega
    rw [parent_to_children_indices, if_neg hn0]
    simp only [Option.map_some', Option.some.injEq]
    exact next_fresh_oob hv hn
  · constructor
    · intro h
      by_cases hn0 : n = 0
      · exact Or.inl hn0
      · right
        by_contra hle
        push_neg at hle
        obtain ⟨s₀, s₁, hB⟩ := block_exists hv (by omega) hle
        rw [parent_to_children_eq hB (by omega)] at h
        simp at h
    · intro h
      rcases h with h | h
      · simp [parent_to_children, parent_to_children_indices, h]
      · have hn0 : ¬ n = 0 := by omega
        have hpc : parent_to_children_indices bs n = some ⟨bs, n, none, none⟩ := by
          simp [parent_to_children_indices, hn0]
        have hnext := next_fresh_oob hv h
        simp only [parent_to_children, hpc]
        rw [show bs.length + 1 = bs.length + 1 from rfl]
        simp only [collectFwd, hnext]
        rfl

/-- Witness for the amended C9: the reference tree, out-of-range node 12,
non-node position 5. -/
theorem c9_failure_policy_witness :
    validate_lbs refLbs = true ∧
    ((node_num_to_index refLbs 12 = none ↔ (12 = 0 ∨ count1 refLbs < 12)) ∧
     (index_to_node_num refLbs 5 = none ↔ refLbs[5]? ≠ some true) ∧
     (child_to_parent refLbs 5 = none ↔ (refLbs[5]? ≠ some true ∨ 5 = 0)) ∧
     (parent_to_children_indices refLbs 12 = none ↔ 12 = 0) ∧
     (parent_to_children_nodes refLbs 12 = none ↔ 12 = 0) ∧
     (count1 refLbs < 12 →
       (parent_to_children_indices refLbs 12).map ChildIndexIter.next = some none) ∧
     (parent_to_children refLbs 12 = none ↔ (12 = 0 ∨ count1 refLbs < 12))) :=
  ⟨by decide, @c9_failure_policy refLbs 12 5 (by decide)⟩

end Louds
